import Mathlib

/-!
Verification of the commit-squash engine of the vscode-git-toolkit
extension (src/command/gitSquashCommits.ts) against its design
specification.

The repository history is modelled as a linear list of commits, oldest
first, whose last element is the branch tip.  The external git tool is
modelled by pure functions giving the documented semantics of each
command on such a history (rev-list ranges, log listings), and the
squash orchestration is modelled as a state machine over an abstract
repository world with an injectable failure point, mirroring the
control flow of squashSelectedCommits.
-/

/-- A git commit as parsed by getCommits: short hash, full hash, author,
commit date (milliseconds, as produced by Date.getTime), subject line,
plus the full commit message (what git log -1 --pretty=%B prints) and a
merge flag used by the git log --no-merges filter. -/
structure Commit where
  shortHash : String
  hash : String
  author : String
  date : Nat
  message : String
  fullMessage : String
  isMerge : Bool
deriving DecidableEq

/-- A repository: its linear commit history, oldest first; the last
element is the current branch tip (HEAD). -/
abbrev Repo := List Commit

/-- Maximum number of commits to fetch (MAX_COMMITS in the source). -/
def MAX_COMMITS : Nat := 10

/-- Model of getCommits: git log -n 10 --no-merges lists the ten most
recent non-merge commits, newest first; an empty repository yields an
empty list (the source returns [] when the probe git log fails). -/
def getCommits (repo : Repo) : List Commit :=
  if repo.isEmpty then []
  else ((repo.filter (fun c => !c.isMerge)).reverse).take MAX_COMMITS

/-- Position of the commit with the given hash in the linear history
(0 = root), none if absent. -/
def posOfHash : Repo → String → Option Nat
  | [], _ => none
  | c :: rest, h =>
    if c.hash = h then some 0 else (posOfHash rest h).map (fun i => i + 1)

/-- Model of git rev-list --topo-order earliest^..latest on a linear
history: the commits at positions from earliest up to latest inclusive,
newest first.  It is none when a hash is unknown or when earliest is the
root commit (earliest^ does not exist, so the git command fails). -/
def revListRange (repo : Repo) (earliestHash latestHash : String) : Option (List String) :=
  match posOfHash repo earliestHash, posOfHash repo latestHash with
  | some e, some l =>
    if e = 0 then none
    else some ((((repo.drop e).take (l + 1 - e)).reverse).map (fun c => c.hash))
  | _, _ => none

/-- Model of git rev-list --topo-order HEAD ^latest on a linear history:
the commits strictly after latest up to the tip, newest first. -/
def revListLater (repo : Repo) (latestHash : String) : Option (List String) :=
  match posOfHash repo latestHash with
  | some l => some (((repo.drop (l + 1)).reverse).map (fun c => c.hash))
  | none => none

/-- JavaScript Array.indexOf: the index of the first occurrence, -1 when
absent. -/
def jsIndexOf (l : List String) (h : String) : Int :=
  match l with
  | [] => -1
  | x :: rest =>
    if x = h then 0 else
      let r := jsIndexOf rest h
      if r = -1 then -1 else r + 1

/-- The range of commits involved in the squash operation, as computed
by getCommitRange. -/
structure CommitRange where
  commitsToSquash : List Commit
  commitsToReapply : List Commit
  laterCommits : List Commit
deriving DecidableEq

/-- Model of getCommitRange.  The commitsToReapply are the fetched
commits lying in the rev-list range earliest^..latest that were not
selected, sorted by descending rev-list index (the source comparator
commitOrder.indexOf(b) - commitOrder.indexOf(a)); the laterCommits are
the fetched commits in rev-list HEAD ^latest, sorted by ascending
rev-list index (the source comparator laterCommitHashes.indexOf(a) -
laterCommitHashes.indexOf(b)).  It is none when one of the underlying
git commands fails (unknown hash, or the earliest commit has no
parent). -/
def getCommitRange (repo : Repo) (commits : List Commit) : Option CommitRange :=
  match commits.head?, commits.getLast? with
  | some earliest, some latest =>
    match revListRange repo earliest.hash latest.hash, revListLater repo latest.hash with
    | some commitOrder, some laterHashes =>
      let allCommits := getCommits repo
      let selectedHashes := commits.map (fun c => c.hash)
      let commitsToReapply :=
        (allCommits.filter
            (fun c => !(selectedHashes.contains c.hash) && commitOrder.contains c.hash)).insertionSort
          (fun a b => jsIndexOf commitOrder b.hash ≤ jsIndexOf commitOrder a.hash)
      let laterCommits :=
        (allCommits.filter (fun c => laterHashes.contains c.hash)).insertionSort
          (fun a b => jsIndexOf laterHashes a.hash ≤ jsIndexOf laterHashes b.hash)
      some { commitsToSquash := commits
             commitsToReapply := commitsToReapply
             laterCommits := laterCommits }
    | _, _ => none
  | _, _ => none

/-- The commits.sort((a, b) => new Date(a.date).getTime() - new
Date(b.date).getTime()) step of squashSelectedCommits: a stable sort by
commit date, ascending. -/
def sortCommitsByDate (commits : List Commit) : List Commit :=
  commits.insertionSort (fun a b => a.date ≤ b.date)

/-- Model of getCommitMessage: git log -1 --pretty=%B prints the full
commit message, which the source trims; the fullMessage field holds the
result of that trim (the full message without surrounding whitespace,
inner newlines preserved). -/
def getCommitMessage (repo : Repo) (h : String) : Option String :=
  (repo.find? (fun c => c.hash = h)).map (fun c => c.fullMessage)

/-- Promise.all over getCommitMessage: all full messages, in the order
of the given commits, failing if any single query fails. -/
def getMessages (repo : Repo) : List Commit → Option (List String)
  | [] => some []
  | c :: rest =>
    match getCommitMessage repo c.hash, getMessages repo rest with
    | some m, some ms => some (m :: ms)
    | _, _ => none

/-- The default message computed by prepareCommitMessage: the fetched
messages are reversed, then either unified (when all are equal to the
first of the reversed list) or joined with a blank line. -/
def prepareCommitMessage (repo : Repo) (commits : List Commit) : Option String :=
  match getMessages repo commits with
  | none => none
  | some msgs =>
    match msgs.reverse with
    | [] => none
    | m0 :: mrest =>
      if (m0 :: mrest).all (fun m => m == m0) then some m0
      else some (String.intercalate "\n\n" (m0 :: mrest))

/-- Outcome of applying one commit with cherry-pick, as classified by
the error-text inspection in cherryPickCommits: success, an
empty-commit failure (error text contains the word empty), a conflict
(error text contains the word conflict), or any other failure. -/
inductive ApplyOutcome where
  | clean
  | empty
  | conflict
  | failOther
deriving DecidableEq

/-- The error thrown out of cherryPickCommits: the commit whose
application failed, and whether git cherry-pick --abort was issued
before rethrowing (true exactly for conflicts). -/
structure ReplayError where
  commit : Commit
  aborted : Bool
deriving DecidableEq

/-- Model of cherryPickCommits: commits are applied in list order; an
empty application is skipped with git cherry-pick --skip and the loop
continues; a conflict issues git cherry-pick --abort and rethrows; any
other failure rethrows directly.  Returns the list of commits actually
applied and the error, if any. -/
def cherryPickCommits (outcome : Commit → ApplyOutcome) :
    List Commit → List Commit × Option ReplayError
  | [] => ([], none)
  | c :: rest =>
    match outcome c with
    | ApplyOutcome.clean =>
      let r := cherryPickCommits outcome rest
      (c :: r.1, r.2)
    | ApplyOutcome.empty => cherryPickCommits outcome rest
    | ApplyOutcome.conflict => ([], some { commit := c, aborted := true })
    | ApplyOutcome.failOther => ([], some { commit := c, aborted := false })

/-- Commands issued to the external git gateway, abstracted to the
shape needed to classify them as mutating or read-only. -/
inductive GitCmd where
  | log
  | revList
  | revParse
  | statusQuery
  | stashListQuery
  | stashPush : String → GitCmd
  | stashPop : String → GitCmd
  | checkoutNew : String → GitCmd
  | checkout : String → GitCmd
  | resetHard : String → GitCmd
  | cherryPick
  | writeTree
  | commitTree
  | branchDelete : String → GitCmd
deriving DecidableEq

/-- Whether a gateway command mutates the repository (moves a ref,
changes the working tree or the stash, or writes objects). -/
def GitCmd.isMutating : GitCmd → Bool
  | GitCmd.log => false
  | GitCmd.revList => false
  | GitCmd.revParse => false
  | GitCmd.statusQuery => false
  | GitCmd.stashListQuery => false
  | _ => true

/-- Abstract state of the repository during a squash attempt: the name
and tip of the user branch, the set of other existing branch names (for
example scratch branches left over by earlier attempts), the tip of the
scratch branch in use, the currently checked-out branch name, the
uncommitted working-tree changes (none = clean), and the stash stack,
newest first, as pairs of stash message and stashed content. -/
structure World where
  mainBranch : String
  mainTip : String
  otherBranches : List String
  tempTip : String
  checkedOut : String
  dirty : Option String
  stash : List (String × String)
deriving DecidableEq

/-- The tip the currently checked-out branch points to. -/
def World.headTip (w : World) : String :=
  if w.checkedOut = w.mainBranch then w.mainTip else w.tempTip

/-- Move the tip of the currently checked-out branch (the effect of git
reset --hard and of a successful cherry-pick). -/
def World.setTip (w : World) (h : String) : World :=
  if w.checkedOut = w.mainBranch then { w with mainTip := h } else { w with tempTip := h }

/-- The GitState record captured by saveGitState. -/
structure GitState where
  currentBranch : String
  originalHead : String
  tempBranch : String
  hasChanges : Bool
  stashName : String
deriving DecidableEq

/-- The scratch branch and stash names generated by saveGitState:
the TEMP_BRANCH_PREFIX constant followed by Date.now() milliseconds. -/
def tempBranchName (now : Nat) : String :=
  "temp-squash" ++ "-" ++ toString now

/-- Model of saveGitState: records the checked-out branch name, the
current HEAD commit, a fresh scratch-branch name and stash name built
from the two Date.now() readings, and whether git status --porcelain
reported uncommitted changes.  It issues only read commands and never
consults the existing refs when generating the scratch-branch name. -/
def saveGitState (w : World) (now1 now2 : Nat) : GitState :=
  { currentBranch := w.checkedOut
    originalHead := w.headTip
    tempBranch := tempBranchName now1
    hasChanges := w.dirty.isSome
    stashName := tempBranchName now2 }

/-- Lookup of restoreStash: the first stash entry whose message matches,
returning its content and the stack with that entry removed. -/
def findStash : List (String × String) → String → Option (String × List (String × String))
  | [], _ => none
  | e :: rest, m =>
    if e.1 = m then some (e.2, rest)
    else (findStash rest m).map (fun r => (r.1, e :: r.2))

/-- Model of restoreGitState.  All four steps run inside one try block:
check out the original branch; when recovering from an error, hard-reset
it to the original HEAD (discarding any working-tree changes); delete
the scratch branch; when changes had been stashed, pop the stash.  A
failure of any step (modelled: git branch -D fails when the scratch
branch does not exist) is caught and logged, ABORTING the remaining
steps, so a failed branch deletion skips the stash restoration. -/
def restoreGitState (w : World) (st : GitState) (isError : Bool) : World × List GitCmd :=
  let w1 : World := { w with checkedOut := st.currentBranch }
  let c1 : List GitCmd := [GitCmd.checkout st.currentBranch]
  let wc2 : World × List GitCmd :=
    if isError then
      ({ w1 with mainTip := st.originalHead, dirty := none }, c1 ++ [GitCmd.resetHard st.originalHead])
    else (w1, c1)
  let w2 := wc2.1
  if w2.otherBranches.contains st.tempBranch && st.tempBranch != st.currentBranch then
    let w3 : World := { w2 with otherBranches := w2.otherBranches.erase st.tempBranch }
    let c3 := wc2.2 ++ [GitCmd.branchDelete st.tempBranch]
    if st.hasChanges then
      match findStash w3.stash st.stashName with
      | some r =>
        ({ w3 with dirty := some r.1, stash := r.2 },
          c3 ++ [GitCmd.stashListQuery, GitCmd.stashPop st.stashName])
      | none => (w3, c3 ++ [GitCmd.stashListQuery])
    else (w3, c3)
  else
    (w2, wc2.2 ++ [GitCmd.branchDelete st.tempBranch])

/-- The successive mutating steps of the try block of
squashSelectedCommits, in source order. -/
inductive StepTag where
  | stashPushStep
  | checkoutTempStep
  | resetTempStep
  | pickSquashStep
  | writeTreeStep
  | revParseAnchorStep
  | commitTreeStep
  | checkoutMainStep
  | resetMainStep
  | pickReapplyStep
  | pickLaterStep
deriving DecidableEq

/-- Abstract commit ids produced along the rewrite: the anchor (parent
of the earliest selected commit), the scratch tip after replaying the
selection, the synthesized squashed commit, the tips after the two
reintegration phases, and the tip left behind when a replay phase fails
partway. -/
structure SquashHashes where
  anchorHash : String
  squashTip : String
  newCommit : String
  reapplyTip : String
  laterTip : String
  failTip : String
deriving DecidableEq

/-- Effect of a successfully completed try-block step on the world. -/
def stepEffect (st : GitState) (p : SquashHashes) : StepTag → World → World
  | StepTag.stashPushStep, w =>
    match w.dirty with
    | some d => { w with stash := (st.stashName, d) :: w.stash, dirty := none }
    | none => w
  | StepTag.checkoutTempStep, w =>
    { w with otherBranches := st.tempBranch :: w.otherBranches
             tempTip := w.headTip
             checkedOut := st.tempBranch }
  | StepTag.resetTempStep, w => { w.setTip p.anchorHash with dirty := none }
  | StepTag.pickSquashStep, w => w.setTip p.squashTip
  | StepTag.writeTreeStep, w => w
  | StepTag.revParseAnchorStep, w => w
  | StepTag.commitTreeStep, w => w
  | StepTag.checkoutMainStep, w => { w with checkedOut := st.currentBranch }
  | StepTag.resetMainStep, w => { w.setTip p.newCommit with dirty := none }
  | StepTag.pickReapplyStep, w => w.setTip p.reapplyTip
  | StepTag.pickLaterStep, w => w.setTip p.laterTip

/-- Precondition under which a try-block step succeeds on its own:
creating the scratch branch requires that no branch of that name
already exists.  All other steps can only fail through an injected
gateway failure. -/
def stepOk (st : GitState) (w : World) : StepTag → Bool
  | StepTag.checkoutTempStep =>
    !(w.otherBranches.contains st.tempBranch) && st.tempBranch != w.mainBranch
  | _ => true

/-- Effect left on the world by a FAILING step: a replay phase that
fails midway leaves the current branch at some intermediate tip (after
git cherry-pick --abort), every other command fails without effect. -/
def stepFailEffect (p : SquashHashes) : StepTag → World → World
  | StepTag.pickSquashStep, w => w.setTip p.failTip
  | StepTag.pickReapplyStep, w => w.setTip p.failTip
  | StepTag.pickLaterStep, w => w.setTip p.failTip
  | _, w => w

/-- The gateway command issued by a try-block step. -/
def stepCmd (st : GitState) (p : SquashHashes) : StepTag → GitCmd
  | StepTag.stashPushStep => GitCmd.stashPush st.stashName
  | StepTag.checkoutTempStep => GitCmd.checkoutNew st.tempBranch
  | StepTag.resetTempStep => GitCmd.resetHard p.anchorHash
  | StepTag.pickSquashStep => GitCmd.cherryPick
  | StepTag.writeTreeStep => GitCmd.writeTree
  | StepTag.revParseAnchorStep => GitCmd.revParse
  | StepTag.commitTreeStep => GitCmd.commitTree
  | StepTag.checkoutMainStep => GitCmd.checkout st.currentBranch
  | StepTag.resetMainStep => GitCmd.resetHard p.newCommit
  | StepTag.pickReapplyStep => GitCmd.cherryPick
  | StepTag.pickLaterStep => GitCmd.cherryPick

/-- Result of running the try block: final world, issued commands, and
whether a step failed (raising an exception). -/
structure TryResult where
  world : World
  cmds : List GitCmd
  failed : Bool
deriving DecidableEq

/-- Run the try-block steps in order.  A step fails when the failure
injection point names it or when its precondition is violated; the
first failure stops the block with the exception propagating. -/
def runTry (st : GitState) (p : SquashHashes) (failAt : Option StepTag) :
    List StepTag → World → TryResult
  | [], w => { world := w, cmds := [], failed := false }
  | t :: rest, w =>
    if failAt = some t || !(stepOk st w t) then
      { world := stepFailEffect p t w, cmds := [stepCmd st p t], failed := true }
    else
      let r := runTry st p failAt rest (stepEffect st p t w)
      { world := r.world, cmds := stepCmd st p t :: r.cmds, failed := r.failed }

/-- The try-block steps: the stash push runs only when the captured
state had uncommitted changes. -/
def trySteps (hasChanges : Bool) : List StepTag :=
  (if hasChanges then [StepTag.stashPushStep] else []) ++
    [StepTag.checkoutTempStep, StepTag.resetTempStep, StepTag.pickSquashStep,
      StepTag.writeTreeStep, StepTag.revParseAnchorStep, StepTag.commitTreeStep,
      StepTag.checkoutMainStep, StepTag.resetMainStep, StepTag.pickReapplyStep,
      StepTag.pickLaterStep]

/-- Overall result of one squashSelectedCommits invocation: final
world, all gateway commands issued, how many times restoreGitState ran,
and whether the invocation threw. -/
structure SquashOutcome where
  world : World
  cmds : List GitCmd
  restoreCalls : Nat
  failed : Bool
deriving DecidableEq

/-- Model of squashSelectedCommits.  Control flow of the source: reject
selections of fewer than two commits; sort by date; compute the range
and the default message (read-only commands); give the user the message
editor (msgResult, none = cancel, returning without error); capture the
git state; then run the mutating try block, with restoreGitState called
once from the error handler (with hard reset) when the block throws,
and once more from the finally block (without hard reset) in every
case. -/
def squashSelectedCommits (repo : Repo) (selected : List Commit) (msgResult : Option String)
    (w0 : World) (now1 now2 : Nat) (p : SquashHashes) (failAt : Option StepTag) : SquashOutcome :=
  if selected.length < 2 then
    { world := w0, cmds := [], restoreCalls := 0, failed := true }
  else
    let sorted := sortCommitsByDate selected
    let rangeCmds : List GitCmd := [GitCmd.log, GitCmd.log, GitCmd.revList, GitCmd.revList]
    match getCommitRange repo sorted with
    | none => { world := w0, cmds := rangeCmds, restoreCalls := 0, failed := true }
    | some _range =>
      let msgCmds : List GitCmd := sorted.map (fun _ => GitCmd.log)
      match prepareCommitMessage repo sorted with
      | none => { world := w0, cmds := rangeCmds ++ msgCmds, restoreCalls := 0, failed := true }
      | some _defaultMsg =>
        match msgResult with
        | none => { world := w0, cmds := rangeCmds ++ msgCmds, restoreCalls := 0, failed := false }
        | some _msg =>
          let st := saveGitState w0 now1 now2
          let saveCmds : List GitCmd := [GitCmd.revParse, GitCmd.revParse, GitCmd.statusQuery]
          let tb := runTry st p failAt (trySteps st.hasChanges) w0
          if tb.failed then
            let r1 := restoreGitState tb.world st true
            let r2 := restoreGitState r1.1 st false
            { world := r2.1
              cmds := rangeCmds ++ msgCmds ++ saveCmds ++ tb.cmds ++ r1.2 ++ r2.2
              restoreCalls := 2
              failed := true }
          else
            let r := restoreGitState tb.world st false
            { world := r.1
              cmds := rangeCmds ++ msgCmds ++ saveCmds ++ tb.cmds ++ r.2
              restoreCalls := 1
              failed := false }

/-! ## Concrete fixtures used by counterexamples and witnesses -/

/-- Commit constructor for concrete histories: the hash doubles as the
short hash, the subject doubles as the full message, no merge. -/
def mkCommit (h : String) (d : Nat) (m : String) : Commit :=
  { shortHash := h, hash := h, author := "a", date := d, message := m,
    fullMessage := m, isMerge := false }

/-- Five-commit linear history h0 (root) to h4 (tip), dates agreeing
with ancestry. -/
def repoC3 : Repo :=
  [mkCommit "h0" 0 "m0", mkCommit "h1" 1 "m1", mkCommit "h2" 2 "m2",
    mkCommit "h3" 3 "m3", mkCommit "h4" 4 "m4"]

/-- A three-commit history whose two non-root commits carry dates in the
opposite order of their ancestry: g1 (position 1) has the later date. -/
def repoC4 : Repo :=
  [mkCommit "g0" 0 "m0", mkCommit "g1" 200 "m1", mkCommit "g2" 100 "m2"]

/-- Four-commit history whose commits h1 and h3 carry dates in the
opposite order of their ancestry (used against the range partition). -/
def repoC1 : Repo :=
  [mkCommit "k0" 0 "m0", mkCommit "k1" 5 "m1", mkCommit "k2" 2 "m2",
    mkCommit "k3" 3 "m3"]

/-- Initial world for the orchestration runs: clean single-branch
repository called main at tip H, with uncommitted changes WORK. -/
def w0D : World :=
  { mainBranch := "main", mainTip := "H", otherBranches := [], tempTip := "",
    checkedOut := "main", dirty := some "WORK", stash := [] }

/-- Three-commit history used by the orchestration runs. -/
def repoD : Repo := [mkCommit "d0" 0 "m0", mkCommit "d1" 1 "m1", mkCommit "d2" 2 "m2"]

/-- Selection of the two newest commits of repoD, oldest first. -/
def selD : List Commit := [mkCommit "d1" 1 "m1", mkCommit "d2" 2 "m2"]

/-- Abstract commit ids for the orchestration runs. -/
def hashesD : SquashHashes :=
  { anchorHash := "A", squashTip := "S", newCommit := "N", reapplyTip := "R",
    laterTip := "L", failTip := "F" }

/-- Two-commit history with distinct messages A (older) and B (newer). -/
def repoC6 : Repo := [mkCommit "e1" 1 "A", mkCommit "e2" 2 "B"]

/-! ## C2 -/

/-- C2 (code_bug): a gateway failure at the git stash push step, after
state capture and with a dirty working tree, is not rolled back to the
pre-operation state: the error-path restoreGitState runs git reset
--hard back to the original head, discarding the uncommitted changes
that were never stashed.  The final world has a clean tree and an empty
stash although the pre-operation tree held the content WORK, so the
working tree is not byte-identical to its pre-operation state (the
branch pointer itself is restored, and the attempt reports failure). -/
theorem C2_stash_push_failure_loses_changes :
    (squashSelectedCommits repoD selD (some "msg") w0D 1000 1001 hashesD
        (some StepTag.stashPushStep)).world =
      { mainBranch := "main", mainTip := "H", otherBranches := [], tempTip := "",
        checkedOut := "main", dirty := none, stash := [] } ∧
    w0D.dirty = some "WORK" ∧
    (squashSelectedCommits repoD selD (some "msg") w0D 1000 1001 hashesD
        (some StepTag.stashPushStep)).failed = true := by decide

/-! ## C3 -/

/-- C3 (code_bug): getCommitRange sorts laterCommits by ascending
rev-list index, and rev-list lists newest first, so the later commits
come out newest first: on repoC3 with selection h1, h2 the computed
laterCommits are h4 then h3, although h3 (position 3) is the ancestor
of h4 (position 4); cherryPickCommits replays a list in list order, so
h4 would be applied before its ancestor h3, contradicting the claimed
oldest-to-newest replay order for laterCommits. -/
theorem C3_later_commits_replayed_newest_first :
    getCommitRange repoC3 [mkCommit "h1" 1 "m1", mkCommit "h2" 2 "m2"] =
      some { commitsToSquash := [mkCommit "h1" 1 "m1", mkCommit "h2" 2 "m2"]
             commitsToReapply := []
             laterCommits := [mkCommit "h4" 4 "m4", mkCommit "h3" 3 "m3"] } ∧
    posOfHash repoC3 "h3" = some 3 ∧ posOfHash repoC3 "h4" = some 4 ∧
    (cherryPickCommits (fun _ => ApplyOutcome.clean)
        [mkCommit "h4" 4 "m4", mkCommit "h3" 3 "m3"]).1 =
      [mkCommit "h4" 4 "m4", mkCommit "h3" 3 "m3"] := by decide

/-! ## C4 -/

/-- C4 (counterexample): the selection g1, g2 of repoC4 has commit
dates disagreeing with ancestry; the sort performed before the range
computation places g2 first because its date is smaller, although g1
(position 1 in the history) is the topologically earliest selected
commit, refuting the claim that the commit placed first is the
topologically earliest one. -/
theorem C4_counterexample :
    sortCommitsByDate [mkCommit "g1" 200 "m1", mkCommit "g2" 100 "m2"] =
      [mkCommit "g2" 100 "m2", mkCommit "g1" 200 "m1"] ∧
    posOfHash repoC4 "g1" = some 1 ∧ posOfHash repoC4 "g2" = some 2 := by decide

/-- C4 (corrected, amended): before the range is computed the selected
commits are sorted with sortCommitsByDate, which orders them by the
wall-clock commit date, ascending (oldest date first), independent of
ancestry: the result is a permutation of the selection that is sorted
by the date field. -/
theorem C4_selection_sorted_by_date (selected : List Commit) :
    (sortCommitsByDate selected).Perm selected ∧
    List.Sorted (fun a b => a.date ≤ b.date) (sortCommitsByDate selected) := by
  refine ⟨List.perm_insertionSort _ _, ?_⟩
  haveI : IsTotal Commit (fun a b => a.date ≤ b.date) :=
    ⟨fun a b => Nat.le_total a.date b.date⟩
  haveI : IsTrans Commit (fun a b => a.date ≤ b.date) :=
    ⟨fun _ _ _ h1 h2 => Nat.le_trans h1 h2⟩
  exact List.sorted_insertionSort _ _

/-! ## C6 -/

/-- C6 (counterexample): on two commits with distinct messages A
(older) and B (newer), handed to prepareCommitMessage oldest first as
in squashSelectedCommits, the computed default message is B, blank
line, A — not the claimed oldest-to-newest concatenation A, blank
line, B. -/
theorem C6_counterexample :
    prepareCommitMessage repoC6 [mkCommit "e1" 1 "A", mkCommit "e2" 2 "B"] =
      some ("B" ++ "\n\n" ++ "A") ∧
    ("B" ++ "\n\n" ++ "A") ≠ ("A" ++ "\n\n" ++ "B") := by decide

/-! ## C9 -/

/-- World with tip X1 used against scratch-branch-name uniqueness. -/
def w9a : World :=
  { mainBranch := "main", mainTip := "X1", otherBranches := [], tempTip := "",
    checkedOut := "main", dirty := none, stash := [] }

/-- A distinct world (different tip): a second, distinct squash attempt. -/
def w9b : World := { w9a with mainTip := "X2" }

/-- World in which a ref named temp-squash-1000 (a leftover scratch
branch of a crashed attempt) already exists. -/
def w9c : World := { w9a with otherBranches := ["temp-squash-1000"] }

/-- C9 (counterexample): two distinct squash attempts whose state
capture reads the same Date.now() millisecond 1000 generate the same
scratch branch name, and on a repository already holding a ref of that
very name the generated name collides with an existing ref —
saveGitState performs no collision check. -/
theorem C9_counterexample :
    (saveGitState w9a 1000 1000).tempBranch = (saveGitState w9b 1000 1000).tempBranch ∧
    w9a ≠ w9b ∧
    w9c.otherBranches.contains (saveGitState w9c 1000 1000).tempBranch = true := by decide

/-! ## C5 -/

/-- C5 (confirmed): during replay of a commit sequence, a commit whose
application yields no content change is skipped and the replay
continues, while the first conflicting commit aborts the in-progress
cherry-pick and fails the run with an error carrying that commit and no
later commit applied: on any sequence consisting of a prefix of clean
or empty applications, then a conflicting commit, then anything, the
applied commits are exactly the clean prefix elements in order and the
result is the aborted ReplayError at the conflicting commit. -/
theorem C5_skip_empty_abort_on_conflict (outcome : Commit → ApplyOutcome)
    (pre : List Commit) (c : Commit) (post : List Commit)
    (hpre : ∀ x ∈ pre, outcome x = ApplyOutcome.clean ∨ outcome x = ApplyOutcome.empty)
    (hc : outcome c = ApplyOutcome.conflict) :
    cherryPickCommits outcome (pre ++ c :: post) =
      (pre.filter (fun x => outcome x == ApplyOutcome.clean),
        some { commit := c, aborted := true }) := by
  induction pre with
  | nil => simp [cherryPickCommits, hc]
  | cons a t ih =>
    have ht := ih (fun x hx => hpre x (List.mem_cons_of_mem a hx))
    rcases hpre a (List.mem_cons_self a t) with ha | ha <;>
      simp [cherryPickCommits, ha, ht]

/-- Outcome assignment for the C5 witness: d1 applies empty, d2
conflicts, everything else applies cleanly. -/
def outcomeW : Commit → ApplyOutcome := fun c =>
  if c.hash = "d1" then ApplyOutcome.empty
  else if c.hash = "d2" then ApplyOutcome.conflict
  else ApplyOutcome.clean

/-- C5 witness: concrete replay in which d0 applies, d1 is skipped as
empty, d2 conflicts and aborts, and d3 is never reached. -/
theorem C5_witness :
    cherryPickCommits outcomeW
        ([mkCommit "d0" 0 "m0", mkCommit "d1" 1 "m1"] ++
          mkCommit "d2" 2 "m2" :: [mkCommit "d3" 3 "m3"]) =
      ([mkCommit "d0" 0 "m0", mkCommit "d1" 1 "m1"].filter
          (fun x => outcomeW x == ApplyOutcome.clean),
        some { commit := mkCommit "d2" 2 "m2", aborted := true }) :=
  C5_skip_empty_abort_on_conflict outcomeW
    [mkCommit "d0" 0 "m0", mkCommit "d1" 1 "m1"] (mkCommit "d2" 2 "m2")
    [mkCommit "d3" 3 "m3"] (by decide) (by decide)

/-! ## C6, general shape -/

/-- Resolution of the per-commit message queries: when every selected
commit is the first of its hash in the repository, the batched query
returns exactly the full messages in selection order. -/
theorem getMessages_eq_map (repo : Repo) :
    ∀ commits : List Commit,
      (∀ c ∈ commits, repo.find? (fun x => x.hash = c.hash) = some c) →
      getMessages repo commits = some (commits.map (fun c => c.fullMessage))
  | [], _ => rfl
  | c :: rest, h => by
    have h1 : getCommitMessage repo c.hash = some c.fullMessage := by
      unfold getCommitMessage
      rw [h c (List.mem_cons_self c rest)]
      rfl
    have h2 := getMessages_eq_map repo rest (fun x hx => h x (List.mem_cons_of_mem c hx))
    simp [getMessages, h1, h2]

/-- C6 (corrected, amended): the default message is a function of the
selected commits taken in the order handed over by
squashSelectedCommits (oldest first after the date sort) with their
message list REVERSED, so that when the messages differ the default is
their concatenation newest to oldest separated by a blank line; when
all messages are byte-identical the default is that single message
exactly, not a concatenation. -/
theorem C6_default_message (repo : Repo) (commits : List Commit)
    (m0 : String) (mrest : List String)
    (hfind : ∀ c ∈ commits, repo.find? (fun x => x.hash = c.hash) = some c)
    (hrev : (commits.map (fun c => c.fullMessage)).reverse = m0 :: mrest) :
    prepareCommitMessage repo commits =
      (if (m0 :: mrest).all (fun m => m == m0) then some m0
        else some (String.intercalate "\n\n" (m0 :: mrest))) := by
  simp only [prepareCommitMessage, getMessages_eq_map repo commits hfind, hrev]

/-- C6 witness: on the two distinct messages A (older) and B (newer)
the default is the newest-to-oldest concatenation branch. -/
theorem C6_witness :
    prepareCommitMessage repoC6 [mkCommit "e1" 1 "A", mkCommit "e2" 2 "B"] =
      (if (["B", "A"]).all (fun m => m == "B") then some "B"
        else some (String.intercalate "\n\n" ["B", "A"])) :=
  C6_default_message repoC6 [mkCommit "e1" 1 "A", mkCommit "e2" 2 "B"] "B" ["A"]
    (by decide) (by decide)

/-! ## C7 -/

/-- C7 (counterexample): a squash attempt that reaches state capture
and then fails (injected gateway failure during the reintegration
replay) runs restoreGitState twice — once from the error handler, once
from the finally block — and not exactly once as claimed. -/
theorem C7_counterexample :
    (squashSelectedCommits repoD selD (some "msg") w0D 2000 2001 hashesD
        (some StepTag.pickReapplyStep)).failed = true ∧
    (squashSelectedCommits repoD selD (some "msg") w0D 2000 2001 hashesD
        (some StepTag.pickReapplyStep)).restoreCalls = 2 ∧
    ¬ (squashSelectedCommits repoD selD (some "msg") w0D 2000 2001 hashesD
        (some StepTag.pickReapplyStep)).restoreCalls = 1 := by decide

/-- C7 (corrected, amended): for every squash attempt that reaches
state capture (at least two commits selected, range and default message
computed, message confirmed), restoreGitState runs exactly twice when
the attempt fails — once from the error handler with rollback and once
from the finally cleanup — and exactly once (the finally cleanup) when
it succeeds, regardless of which intermediate step failed. -/
theorem C7_restore_runs_twice_on_failure (repo : Repo) (selected : List Commit)
    (msg : String) (w0 : World) (now1 now2 : Nat) (p : SquashHashes)
    (failAt : Option StepTag)
    (h2 : 2 ≤ selected.length)
    (hr : (getCommitRange repo (sortCommitsByDate selected)).isSome = true)
    (hm : (prepareCommitMessage repo (sortCommitsByDate selected)).isSome = true) :
    (squashSelectedCommits repo selected (some msg) w0 now1 now2 p failAt).restoreCalls =
      if (squashSelectedCommits repo selected (some msg) w0 now1 now2 p failAt).failed
      then 2 else 1 := by
  obtain ⟨r, hr2⟩ := Option.isSome_iff_exists.mp hr
  obtain ⟨d, hm2⟩ := Option.isSome_iff_exists.mp hm
  simp only [squashSelectedCommits, if_neg (show ¬ selected.length < 2 by omega), hr2, hm2]
  cases htb : (runTry (saveGitState w0 now1 now2) p failAt
      (trySteps (saveGitState w0 now1 now2).hasChanges) w0).failed <;> simp [htb]

/-- C7 witness: a concrete failing attempt (gateway failure at the
checkout back to the user branch), where the restore count is forced by
the amended law. -/
theorem C7_witness :
    (squashSelectedCommits repoD selD (some "w") w0D 3000 3001 hashesD
        (some StepTag.checkoutMainStep)).restoreCalls =
      if (squashSelectedCommits repoD selD (some "w") w0D 3000 3001 hashesD
          (some StepTag.checkoutMainStep)).failed then 2 else 1 :=
  C7_restore_runs_twice_on_failure repoD selD "w" w0D 3000 3001 hashesD
    (some StepTag.checkoutMainStep) (by decide) (by decide) (by decide)

/-! ## C8 -/

/-- The commands issued before state capture are all read-only. -/
theorem readCmds_not_mutating (l : List Commit) (c : GitCmd)
    (hc : c ∈ [GitCmd.log, GitCmd.log, GitCmd.revList, GitCmd.revList] ++
      List.map (fun _ => GitCmd.log) l) :
    c.isMutating = false := by
  rcases List.mem_append.mp hc with h | h
  · simp only [List.mem_cons, List.not_mem_nil, or_false] at h
    rcases h with rfl | rfl | rfl | rfl <;> rfl
  · obtain ⟨x, _, rfl⟩ := List.mem_map.mp h
    rfl

/-- C8 (confirmed): every run that ends before state capture — a
selection of fewer than two commits, or cancellation at the message
editor — issues no mutating gateway command (no stash creation, no
scratch branch, no branch-pointer move), leaves the repository world
exactly as it was, and never invokes restoreGitState. -/
theorem C8_no_mutation_before_capture (repo : Repo) (selected : List Commit)
    (msgResult : Option String) (w0 : World) (now1 now2 : Nat) (p : SquashHashes)
    (failAt : Option StepTag)
    (h : selected.length < 2 ∨ msgResult = none) :
    (squashSelectedCommits repo selected msgResult w0 now1 now2 p failAt).world = w0 ∧
    (squashSelectedCommits repo selected msgResult w0 now1 now2 p failAt).restoreCalls = 0 ∧
    ((squashSelectedCommits repo selected msgResult w0 now1 now2 p failAt).cmds.all
        (fun c => !c.isMutating)) = true := by
  by_cases h2 : selected.length < 2
  · simp only [squashSelectedCommits, if_pos h2]
    exact ⟨trivial, trivial, rfl⟩
  · have hmr : msgResult = none := by tauto
    subst hmr
    cases hgr : getCommitRange repo (sortCommitsByDate selected) with
    | none =>
      simp only [squashSelectedCommits, if_neg h2, hgr]
      exact ⟨trivial, trivial, by decide⟩
    | some r =>
      cases hpm : prepareCommitMessage repo (sortCommitsByDate selected) with
      | none =>
        simp only [squashSelectedCommits, if_neg h2, hgr, hpm]
        refine ⟨trivial, trivial, ?_⟩
        refine List.all_eq_true.mpr (fun c hc => ?_)
        have hx := readCmds_not_mutating (sortCommitsByDate selected) c (by simpa using hc)
        simp [hx]
      | some d =>
        simp only [squashSelectedCommits, if_neg h2, hgr, hpm]
        refine ⟨trivial, trivial, ?_⟩
        refine List.all_eq_true.mpr (fun c hc => ?_)
        have hx := readCmds_not_mutating (sortCommitsByDate selected) c (by simpa using hc)
        simp [hx]

/-- C8 witness: cancelling at the message editor on a concrete
two-commit selection leaves the world untouched with zero restore calls
and only read-only commands. -/
theorem C8_witness :
    (squashSelectedCommits repoD selD none w0D 4000 4001 hashesD none).world = w0D ∧
    (squashSelectedCommits repoD selD none w0D 4000 4001 hashesD none).restoreCalls = 0 ∧
    ((squashSelectedCommits repoD selD none w0D 4000 4001 hashesD none).cmds.all
        (fun c => !c.isMutating)) = true :=
  C8_no_mutation_before_capture repoD selD none w0D 4000 4001 hashesD none (Or.inr rfl)

/-! ## C10 -/

/-- C10 (confirmed): the commit list offered for selection holds at
most MAX_COMMITS = 10 commits, all non-merge, drawn newest first from
the non-merge history; and every commit that getCommitRange places in
commitsToReapply or laterCommits belongs to that capped list, so a
commit outside it — older than the ten most recent non-merge commits,
or a merge commit — never appears there even when it lies inside the
rewritten range. -/
theorem C10_range_confined_to_capped_list (repo : Repo) (commits : List Commit)
    (r : CommitRange) (h : getCommitRange repo commits = some r) :
    (r.commitsToReapply.all (fun c => (getCommits repo).contains c)) = true ∧
    (r.laterCommits.all (fun c => (getCommits repo).contains c)) = true ∧
    (getCommits repo).length ≤ MAX_COMMITS ∧
    ((getCommits repo).all (fun c => !c.isMerge)) = true ∧
    (getCommits repo).Sublist ((repo.filter (fun c => !c.isMerge)).reverse) := by
  have hg5 : (getCommits repo).Sublist ((repo.filter (fun c => !c.isMerge)).reverse) := by
    unfold getCommits
    split
    · exact List.nil_sublist _
    · exact List.take_sublist _ _
  have hg3 : (getCommits repo).length ≤ MAX_COMMITS := by
    unfold getCommits
    split
    · simp
    · simp
  have hg4 : ((getCommits repo).all (fun c => !c.isMerge)) = true := by
    refine List.all_eq_true.mpr (fun c hc => ?_)
    have hc2 : c ∈ repo.filter (fun c => !c.isMerge) := List.mem_reverse.mp (hg5.subset hc)
    simpa using (List.mem_filter.mp hc2).2
  refine ⟨?_, ?_, hg3, hg4, hg5⟩ <;>
  · simp only [getCommitRange] at h
    split at h
    case _ earliest latest heq1 heq2 =>
      split at h
      case _ commitOrder laterHashes heq3 heq4 =>
        injection h with h
        subst h
        refine List.all_eq_true.mpr (fun c hc => ?_)
        have hmem := (List.perm_insertionSort _ _).subset hc
        have hin := (List.mem_filter.mp hmem).1
        simp [hin]
      case _ => exact absurd h (by simp)
    case _ => exact absurd h (by simp)

/-- C10 witness: the concrete five-commit history with selection h1, h2
instantiates the confinement law. -/
theorem C10_witness :
    (CommitRange.commitsToReapply
        { commitsToSquash := [mkCommit "h1" 1 "m1", mkCommit "h2" 2 "m2"]
          commitsToReapply := []
          laterCommits := [mkCommit "h4" 4 "m4", mkCommit "h3" 3 "m3"] }).all
      (fun c => (getCommits repoC3).contains c) = true ∧
    (CommitRange.laterCommits
        { commitsToSquash := [mkCommit "h1" 1 "m1", mkCommit "h2" 2 "m2"]
          commitsToReapply := []
          laterCommits := [mkCommit "h4" 4 "m4", mkCommit "h3" 3 "m3"] }).all
      (fun c => (getCommits repoC3).contains c) = true ∧
    (getCommits repoC3).length ≤ MAX_COMMITS ∧
    ((getCommits repoC3).all (fun c => !c.isMerge)) = true ∧
    (getCommits repoC3).Sublist ((repoC3.filter (fun c => !c.isMerge)).reverse) :=
  C10_range_confined_to_capped_list repoC3 [mkCommit "h1" 1 "m1", mkCommit "h2" 2 "m2"]
    { commitsToSquash := [mkCommit "h1" 1 "m1", mkCommit "h2" 2 "m2"]
      commitsToReapply := []
      laterCommits := [mkCommit "h4" 4 "m4", mkCommit "h3" 3 "m3"] } (by decide)

/-- C9 (corrected, amended): the scratch branch name generated at state
capture is the fixed temp-squash prefix followed by the Date.now()
millisecond reading; it depends only on that reading and never on the
repository state, and no existence check against current refs is
performed — two attempts receive the same name exactly when their
readings render to the same decimal string (in particular whenever the
captures fall in the same millisecond), so uniqueness holds only
between attempts whose readings differ. -/
theorem C9_name_depends_only_on_timestamp (w1 w2 : World) (n1 n2 s1 s2 : Nat) :
    ((saveGitState w1 n1 s1).tempBranch = (saveGitState w2 n2 s2).tempBranch) ↔
      toString n1 = toString n2 := by
  constructor
  · intro h
    have h2 : ("temp-squash" ++ "-" ++ toString n1).data =
        ("temp-squash" ++ "-" ++ toString n2).data := congrArg String.data h
    simp only [String.data_append] at h2
    have h3 := List.append_cancel_left h2
    cases hs1 : toString n1 with
    | mk d1 =>
      cases hs2 : toString n2 with
      | mk d2 =>
        rw [hs1, hs2] at h3
        exact congrArg String.mk h3
  · intro h
    simp [saveGitState, tempBranchName, h]

/-! ## C1 -/

/-- Position lookup skips a leading segment holding no occurrence of
the hash. -/
theorem posOfHash_append_of_not_mem (l₁ l₂ : List Commit) (h : String)
    (hni : ∀ c ∈ l₁, c.hash ≠ h) :
    posOfHash (l₁ ++ l₂) h = (posOfHash l₂ h).map (fun i => i + l₁.length) := by
  induction l₁ with
  | nil => cases hpl : posOfHash l₂ h <;> simp [hpl]
  | cons a t ih =>
    have ha : ¬ (a.hash = h) := hni a (List.mem_cons_self a t)
    rw [List.cons_append]
    have ih2 := ih (fun c hc => hni c (List.mem_cons_of_mem a hc))
    simp only [posOfHash, if_neg ha, ih2]
    cases posOfHash l₂ h <;> simp [Nat.add_assoc]

/-- In a duplicate-free history, commits left of an occurrence of x
carry hashes different from the hash of x. -/
theorem hash_ne_of_nodup_append (l : List Commit) (x : Commit) (l₂ : List Commit)
    (hnd : ((l ++ x :: l₂).map Commit.hash).Nodup) :
    ∀ c ∈ l, c.hash ≠ x.hash := by
  intro c hc he
  rw [List.map_append, List.nodup_append] at hnd
  exact hnd.2.2 (List.mem_map_of_mem _ hc) (by rw [he]; simp)

/-- The rewritten segment of the history: the earliest selected commit
c0, the commits between, and the latest selected commit c1. -/
def midSeg (c0 : Commit) (midMid : List Commit) (c1 : Commit) : List Commit :=
  c0 :: (midMid ++ [c1])

/-- Filtering the newest-first listing of a three-part history by a
predicate that is false outside the middle segment is a permutation of
the middle segment filtered by the matching restriction. -/
theorem filter_reverse_perm_of_segment (l₁ seg l₂ : List Commit) (p q : Commit → Bool)
    (h1 : ∀ c ∈ l₁, p c = false) (h2 : ∀ c ∈ l₂, p c = false)
    (h3 : ∀ c ∈ seg, p c = q c) :
    (((l₁ ++ (seg ++ l₂)).reverse).filter p).Perm (seg.filter q) := by
  have e1 : List.filter p l₁ = [] :=
    List.filter_eq_nil_iff.mpr (fun a ha => by simp [h1 a ha])
  have e2 : List.filter p l₂ = [] :=
    List.filter_eq_nil_iff.mpr (fun a ha => by simp [h2 a ha])
  have e3 : List.filter p seg = List.filter q seg := List.filter_congr h3
  have hp : (((l₁ ++ (seg ++ l₂)).reverse).filter p).Perm ((l₁ ++ (seg ++ l₂)).filter p) :=
    (List.reverse_perm _).filter p
  have e4 : (l₁ ++ (seg ++ l₂)).filter p = seg.filter q := by
    rw [List.filter_append, List.filter_append, e1, e2, e3]
    simp
  rw [e4] at hp
  exact hp

/-- With duplicate-free hashes, the selected commits are a permutation
of the mid-segment commits whose hash occurs in the sorted selection. -/
theorem perm_filter_selected (mid selected sorted : List Commit)
    (hmidnd : (mid.map Commit.hash).Nodup)
    (hselnd : (selected.map Commit.hash).Nodup)
    (hsub : ∀ c ∈ selected, c ∈ mid)
    (hsp : sorted.Perm selected) :
    sorted.Perm
      (mid.filter (fun c => (sorted.map (fun c => c.hash)).contains c.hash)) := by
  have hseln : selected.Nodup := hselnd.of_map
  have hmidn : mid.Nodup := hmidnd.of_map
  have hfiln : (mid.filter (fun c => (sorted.map (fun c => c.hash)).contains c.hash)).Nodup :=
    hmidn.filter _
  refine hsp.trans ((List.perm_ext_iff_of_nodup hseln hfiln).mpr (fun a => ?_))
  constructor
  · intro ha
    refine List.mem_filter.mpr ⟨hsub a ha, ?_⟩
    have : a.hash ∈ sorted.map (fun c => c.hash) :=
      List.mem_map_of_mem _ (hsp.mem_iff.mpr ha)
    simp [this]
  · intro ha
    obtain ⟨ham, hac⟩ := List.mem_filter.mp ha
    have : a.hash ∈ sorted.map (fun c => c.hash) := by simpa using hac
    obtain ⟨s, hs, hsh⟩ := List.mem_map.mp this
    have hssel : s ∈ selected := hsp.mem_iff.mp hs
    have hsm : s ∈ mid := hsub s hssel
    have : a = s := List.inj_on_of_nodup_map hmidnd ham hsm hsh.symm
    rw [this]
    exact hssel

/-- Filtering the newest-first listing of a history by a predicate
that is false before a tail segment and true on it is a permutation of
that tail segment. -/
theorem filter_reverse_perm_of_tail (l₁ seg : List Commit) (p : Commit → Bool)
    (h1 : ∀ c ∈ l₁, p c = false) (h3 : ∀ c ∈ seg, p c = true) :
    (((l₁ ++ seg).reverse).filter p).Perm seg := by
  have e1 : List.filter p l₁ = [] :=
    List.filter_eq_nil_iff.mpr (fun a ha => by simp [h1 a ha])
  have e3 : List.filter p seg = seg := List.filter_eq_self.mpr h3
  have hp : (((l₁ ++ seg).reverse).filter p).Perm ((l₁ ++ seg).filter p) :=
    (List.reverse_perm _).filter p
  have e4 : (l₁ ++ seg).filter p = seg := by
    rw [List.filter_append, e1, e3]
    simp
  rw [e4] at hp
  exact hp

/-- C1 (corrected, amended): the partition invariant holds under the
provisos the code actually needs: the history is linear without merge
commits and no longer than the MAX_COMMITS fetch window (so the capped
getCommits listing covers it), the hashes are duplicate-free, the
earliest selected commit has a parent (pre nonempty), and the date sort
places the topologically earliest selected commit first and the
topologically latest selected commit last (positions of all selected
commits lying between them).  Then getCommitRange succeeds and
commitsToSquash, commitsToReapply and laterCommits together are a
permutation of — cover exactly once — the commits strictly after the
parent of the earliest selected commit up to the original branch tip.
Without the date-alignment proviso the invariant fails (see the
counterexample). -/
theorem C1_partition_aligned (pre midMid post : List Commit) (c0 c1 : Commit)
    (selected : List Commit)
    (hpre : pre ≠ [])
    (hnd : ((pre ++ (midSeg c0 midMid c1 ++ post)).map Commit.hash).Nodup)
    (hmerge : ∀ c ∈ pre ++ (midSeg c0 midMid c1 ++ post), c.isMerge = false)
    (hlen : (pre ++ (midSeg c0 midMid c1 ++ post)).length ≤ MAX_COMMITS)
    (hsel2 : 2 ≤ selected.length)
    (hselnd : (selected.map Commit.hash).Nodup)
    (hsub : ∀ c ∈ selected, c ∈ midSeg c0 midMid c1)
    (hhead : (sortCommitsByDate selected).head? = some c0)
    (hlast : (sortCommitsByDate selected).getLast? = some c1) :
    ∃ r, getCommitRange (pre ++ (midSeg c0 midMid c1 ++ post)) (sortCommitsByDate selected) =
        some r ∧
      (r.commitsToSquash ++ r.commitsToReapply ++ r.laterCommits).Perm
        (midSeg c0 midMid c1 ++ post) := by
  have hsplit0 : pre ++ (midSeg c0 midMid c1 ++ post) =
      pre ++ (c0 :: ((midMid ++ [c1]) ++ post)) := by
    simp [midSeg]
  have hsplit1 : pre ++ (midSeg c0 midMid c1 ++ post) =
      (pre ++ (c0 :: midMid)) ++ (c1 :: post) := by
    simp [midSeg, List.append_assoc]
  have hpre0 : ∀ c ∈ pre, c.hash ≠ c0.hash :=
    hash_ne_of_nodup_append pre c0 ((midMid ++ [c1]) ++ post) (by rw [← hsplit0]; exact hnd)
  have hq : ∀ c ∈ pre ++ (c0 :: midMid), c.hash ≠ c1.hash :=
    hash_ne_of_nodup_append (pre ++ (c0 :: midMid)) c1 post (by rw [← hsplit1]; exact hnd)
  have hpos0 : posOfHash (pre ++ (midSeg c0 midMid c1 ++ post)) c0.hash = some pre.length := by
    rw [hsplit0, posOfHash_append_of_not_mem pre _ _ hpre0]
    simp [posOfHash]
  have hpos1 : posOfHash (pre ++ (midSeg c0 midMid c1 ++ post)) c1.hash =
      some (pre.length + (midMid.length + 1)) := by
    rw [hsplit1, posOfHash_append_of_not_mem _ _ _ hq]
    have hlen2 : (pre ++ (c0 :: midMid)).length = pre.length + (midMid.length + 1) := by
      simp [List.length_append]
    simp [posOfHash, hlen2]
  have hplen : pre.length ≠ 0 := by
    intro h0
    exact hpre (List.length_eq_zero.mp h0)
  have hrl : revListRange (pre ++ (midSeg c0 midMid c1 ++ post)) c0.hash c1.hash =
      some (((midSeg c0 midMid c1).reverse).map (fun c => c.hash)) := by
    simp only [revListRange, hpos0, hpos1, if_neg hplen]
    have hdrop : (pre ++ (midSeg c0 midMid c1 ++ post)).drop pre.length =
        midSeg c0 midMid c1 ++ post := List.drop_left pre _
    have harith : pre.length + (midMid.length + 1) + 1 - pre.length =
        (midSeg c0 midMid c1).length := by
      simp [midSeg]
      omega
    rw [hdrop, harith, List.take_left]
  have hrlater : revListLater (pre ++ (midSeg c0 midMid c1 ++ post)) c1.hash =
      some ((post.reverse).map (fun c => c.hash)) := by
    simp only [revListLater, hpos1]
    have harith2 : pre.length + (midMid.length + 1) + 1 =
        (pre ++ midSeg c0 midMid c1).length := by
      simp [midSeg]
      omega
    rw [harith2, hsplit1]
    have he : (pre ++ (c0 :: midMid)) ++ (c1 :: post) =
        (pre ++ midSeg c0 midMid c1) ++ post := by
      simp [midSeg, List.append_assoc]
    rw [he, List.drop_left]
  have hall : getCommits (pre ++ (midSeg c0 midMid c1 ++ post)) =
      (pre ++ (midSeg c0 midMid c1 ++ post)).reverse := by
    unfold getCommits
    rw [if_neg (by simp [hpre])]
    rw [List.filter_eq_self.mpr (fun a ha => by simp [hmerge a ha])]
    refine List.take_of_length_le ?_
    rw [List.length_reverse]
    exact hlen
  -- disjointness of the hash segments
  have hnd2 : (pre.map Commit.hash ++
      ((midSeg c0 midMid c1).map Commit.hash ++ post.map Commit.hash)).Nodup := by
    simpa [List.map_append] using hnd
  obtain ⟨hndpre, hndrest, hdisj1⟩ := List.nodup_append.mp hnd2
  obtain ⟨hndmid, hndpost, hdisj2⟩ := List.nodup_append.mp hndrest
  -- reduce getCommitRange
  simp only [getCommitRange, hhead, hlast, hrl, hrlater, hall]
  refine ⟨_, rfl, ?_⟩
  dsimp only
  -- notation
  have hselhash : ∀ c ∈ midSeg c0 midMid c1,
      ((sortCommitsByDate selected).map (fun c => c.hash)).contains c.hash =
        ((sortCommitsByDate selected).map (fun c => c.hash)).contains c.hash := fun _ _ => rfl
  -- the three permutation facts
  have hsp : (sortCommitsByDate selected).Perm selected := List.perm_insertionSort _ _
  have p3 : (sortCommitsByDate selected).Perm
      ((midSeg c0 midMid c1).filter
        (fun c => ((sortCommitsByDate selected).map (fun c => c.hash)).contains c.hash)) :=
    perm_filter_selected _ _ _ hndmid hselnd hsub hsp
  have hmem_mid_hash : ∀ c : Commit, c ∈ midSeg c0 midMid c1 →
      ((((midSeg c0 midMid c1).reverse).map (fun c => c.hash)).contains c.hash) = true := by
    intro c hc
    simp only [List.contains_eq_any_beq, List.any_eq_true]
    refine ⟨c.hash, ?_, by simp⟩
    simp only [List.map_reverse, List.mem_reverse]
    exact List.mem_map_of_mem _ hc
  have hnotmem_pre : ∀ c : Commit, c ∈ pre →
      ((((midSeg c0 midMid c1).reverse).map (fun c => c.hash)).contains c.hash) = false := by
    intro c hc
    have : c.hash ∉ ((midSeg c0 midMid c1).reverse).map (fun c => c.hash) := by
      simp only [List.map_reverse, List.mem_reverse]
      intro hmem
      exact hdisj1 (List.mem_map_of_mem _ hc) (List.mem_append_left _ hmem)
    simpa using this
  have hnotmem_post : ∀ c : Commit, c ∈ post →
      ((((midSeg c0 midMid c1).reverse).map (fun c => c.hash)).contains c.hash) = false := by
    intro c hc
    have : c.hash ∉ ((midSeg c0 midMid c1).reverse).map (fun c => c.hash) := by
      simp only [List.map_reverse, List.mem_reverse]
      intro hmem
      exact hdisj2.symm (List.mem_map_of_mem _ hc) hmem
    simpa using this
  have p1 : ((((pre ++ (midSeg c0 midMid c1 ++ post)).reverse)).filter
      (fun c => !(((sortCommitsByDate selected).map (fun c => c.hash)).contains c.hash) &&
        ((((midSeg c0 midMid c1).reverse).map (fun c => c.hash)).contains c.hash))).Perm
      ((midSeg c0 midMid c1).filter
        (fun c => !(((sortCommitsByDate selected).map (fun c => c.hash)).contains c.hash))) := by
    refine filter_reverse_perm_of_segment pre _ post _ _ ?_ ?_ ?_
    · intro c hc
      simp only [hnotmem_pre c hc, Bool.and_false]
    · intro c hc
      simp only [hnotmem_post c hc, Bool.and_false]
    · intro c hc
      simp only [hmem_mid_hash c hc, Bool.and_true]
  have hmem_post_hash : ∀ c : Commit, c ∈ post →
      (((post.reverse).map (fun c => c.hash)).contains c.hash) = true := by
    intro c hc
    simp only [List.contains_eq_any_beq, List.any_eq_true]
    refine ⟨c.hash, ?_, by simp⟩
    simp only [List.map_reverse, List.mem_reverse]
    exact List.mem_map_of_mem _ hc
  have hnotmem_pm : ∀ c : Commit, c ∈ pre ++ midSeg c0 midMid c1 →
      (((post.reverse).map (fun c => c.hash)).contains c.hash) = false := by
    intro c hc
    have : c.hash ∉ (post.reverse).map (fun c => c.hash) := by
      simp only [List.map_reverse, List.mem_reverse]
      intro hmem
      rcases List.mem_append.mp hc with hc | hc
      · exact hdisj1 (List.mem_map_of_mem _ hc) (List.mem_append_right _ hmem)
      · exact hdisj2 (List.mem_map_of_mem _ hc) hmem
    simpa using this
  have p2 : ((((pre ++ (midSeg c0 midMid c1 ++ post)).reverse)).filter
      (fun c => (((post.reverse).map (fun c => c.hash)).contains c.hash))).Perm post := by
    have hassoc : pre ++ (midSeg c0 midMid c1 ++ post) =
        (pre ++ midSeg c0 midMid c1) ++ post := (List.append_assoc _ _ _).symm
    rw [hassoc]
    refine filter_reverse_perm_of_tail _ _ _ ?_ ?_
    · intro c hc
      exact hnotmem_pm c hc
    · intro c hc
      exact hmem_post_hash c hc
  -- assemble
  have pA : (List.insertionSort
      (fun a b =>
        jsIndexOf (((midSeg c0 midMid c1).reverse).map (fun c => c.hash)) b.hash ≤
          jsIndexOf (((midSeg c0 midMid c1).reverse).map (fun c => c.hash)) a.hash)
      (((pre ++ (midSeg c0 midMid c1 ++ post)).reverse).filter
      (fun c => !(((sortCommitsByDate selected).map (fun c => c.hash)).contains c.hash) &&
        ((((midSeg c0 midMid c1).reverse).map (fun c => c.hash)).contains c.hash)))).Perm
      ((midSeg c0 midMid c1).filter
        (fun c => !(((sortCommitsByDate selected).map (fun c => c.hash)).contains c.hash))) :=
    (List.perm_insertionSort _ _).trans p1
  have pB : (List.insertionSort
      (fun a b =>
        jsIndexOf ((post.reverse).map (fun c => c.hash)) a.hash ≤
          jsIndexOf ((post.reverse).map (fun c => c.hash)) b.hash)
      (((pre ++ (midSeg c0 midMid c1 ++ post)).reverse).filter
      (fun c => (((post.reverse).map (fun c => c.hash)).contains c.hash)))).Perm post :=
    (List.perm_insertionSort _ _).trans p2
  have hcat := (p3.append pA).append pB
  refine hcat.trans ?_
  have hfl : ((midSeg c0 midMid c1).filter
        (fun c => ((sortCommitsByDate selected).map (fun c => c.hash)).contains c.hash) ++
      (midSeg c0 midMid c1).filter
        (fun c => !(((sortCommitsByDate selected).map (fun c => c.hash)).contains c.hash))).Perm
      (midSeg c0 midMid c1) :=
    List.filter_append_perm _ _
  exact hfl.append_right post

/-- C1 (counterexample): on the four-commit history repoC1 whose
selected commits k1 and k3 carry dates opposite to their ancestry, the
date sort makes k3 the range anchor, the rev-list range comes out
empty, and the branch tip k3 lands in both commitsToSquash and
laterCommits: the combined hash list has k3 twice and is not a
permutation of the claimed range k1, k2, k3 — the partition invariant
is violated (duplicate application, k2 silently dropped). -/
theorem C1_counterexample :
    (getCommitRange repoC1 (sortCommitsByDate
        [mkCommit "k1" 5 "m1", mkCommit "k3" 3 "m3"])).map
      (fun r => (r.commitsToSquash ++ r.commitsToReapply ++ r.laterCommits).map Commit.hash) =
      some ["k3", "k1", "k3", "k2"] ∧
    ¬ (["k3", "k1", "k3", "k2"].Perm ["k1", "k2", "k3"]) := by decide

/-- C1 witness: a five-commit history with an aligned two-commit
selection instantiates the amended partition law. -/
theorem C1_witness :
    ∃ r, getCommitRange
        ([mkCommit "a0" 0 "m0"] ++
          (midSeg (mkCommit "a1" 1 "m1") [mkCommit "a2" 2 "m2"] (mkCommit "a3" 3 "m3") ++
            [mkCommit "a4" 4 "m4"]))
        (sortCommitsByDate [mkCommit "a3" 3 "m3", mkCommit "a1" 1 "m1"]) = some r ∧
      (r.commitsToSquash ++ r.commitsToReapply ++ r.laterCommits).Perm
        (midSeg (mkCommit "a1" 1 "m1") [mkCommit "a2" 2 "m2"] (mkCommit "a3" 3 "m3") ++
          [mkCommit "a4" 4 "m4"]) :=
  C1_partition_aligned [mkCommit "a0" 0 "m0"] [mkCommit "a2" 2 "m2"] [mkCommit "a4" 4 "m4"]
    (mkCommit "a1" 1 "m1") (mkCommit "a3" 3 "m3")
    [mkCommit "a3" 3 "m3", mkCommit "a1" 1 "m1"]
    (by decide) (by decide) (by decide) (by decide) (by decide) (by decide) (by decide)
    (by decide) (by decide)
